import Mathlib

/-!
# Verification of `script/multi-arch-tracking/generate-table.py`

A shallow embedding of the architecture-support-table generator.  Python
strings are modelled as Lean `String`s (lists of characters); Python `set`s
of strings as `Finset String`; Python dicts as association lists in insertion
order; the YAML/subprocess boundaries as explicit data (`ParseOutcome`,
`Except`-valued command results).  Each Python function is translated
directly from the source; `spec_`-prefixed definitions restate the
natural-language specification and are compared with the code-derived
definitions in the theorems.
-/

namespace GenTable

/-! ## Python string primitives, modelled over `List Char` -/

/-- Python `str.split(sep)` for a non-empty separator, over character lists:
scan left to right, cutting at each non-overlapping occurrence of `sep`.
`acc` holds the (reversed) characters of the current field and `skip` the
number of still-to-consume characters of a just-matched separator, keeping
the recursion structural. -/
def splitOnAux (sep : List Char) : List Char → Nat → List Char → List (List Char)
  | acc, _, [] => [acc.reverse]
  | acc, skip + 1, _ :: rest => splitOnAux sep acc skip rest
  | acc, 0, c :: rest =>
    if sep.isPrefixOf (c :: rest) then
      acc.reverse :: splitOnAux sep [] (sep.length - 1) rest
    else
      splitOnAux sep (c :: acc) 0 rest

/-- Python `str.split(sep)` over character lists. -/
def pySplit (sep l : List Char) : List (List Char) := splitOnAux sep [] 0 l

/-- Python `str.split(sep)` on `String`s. -/
def strSplit (sep s : String) : List String := (pySplit sep.data s.data).map String.mk

/-- Python `sub in s` (substring containment). -/
def strContains (sub s : String) : Bool := s.data.tails.any (fun t => sub.data.isPrefixOf t)

/-- Python `s.replace(old, new)` for non-empty `old`
(equal to `new.join(s.split(old))`). -/
def strReplace (old new s : String) : String :=
  String.mk (List.intercalate new.data (pySplit old.data s.data))

/-- Python `s.startswith(p)`. -/
def strStartsWith (p s : String) : Bool := p.data.isPrefixOf s.data

/-- Python `s.endswith(p)`. -/
def strEndsWith (p s : String) : Bool := p.data.isSuffixOf s.data

/-- Python `s.lower()` (ASCII case folding suffices for this program). -/
def strLower (s : String) : String := String.mk (s.data.map Char.toLower)

/-- Python format spec `<w` / `str.ljust(w)`: pad on the right with spaces. -/
def strLJust (w : Nat) (s : String) : String :=
  s ++ String.mk (List.replicate (w - s.length) ' ')

/-- Python format spec `^w`: centre in `w` columns, extra space on the right. -/
def strCenter (w : Nat) (s : String) : String :=
  let marg := w - s.length
  let left := marg / 2
  String.mk (List.replicate left ' ') ++ s ++ String.mk (List.replicate (marg - left) ' ')

/-! ## The program: parsing helpers -/

/-- Embeds `normalize_architecture` (generate-table.py, lines 16–38): keep the part
after the last `/` (the whole string if there is none) and map `x86_64`
to `amd64`. -/
def normalize_architecture (platform : String) : String :=
  let arch := if strContains "/" platform then (strSplit "/" platform).getLastD "" else platform
  if arch = "x86_64" then "amd64" else arch

/-- Embeds `extract_component_name` (lines 41–62): strip the `quay.io/rhoai/`
registry prefix when present, then keep everything before the first `:`. -/
def extract_component_name (output_image : String) : String :=
  let name :=
    if strStartsWith "quay.io/rhoai/" output_image then
      String.mk (output_image.data.drop "quay.io/rhoai/".length)
    else output_image
  if strContains ":" name then (strSplit ":" name).headD "" else name

/-! ## The program: document model and per-document parsing

`yaml.safe_load` is a boundary we cannot embed; its result on the shapes this
program inspects is modelled by `Option PipelineRunDoc`: `none` models a falsy
document or one without `spec`/`spec.params`, and `some` carries the parameter
list, each parameter with an optional `name` and an optional value that is
either a string or a list of strings (the two shapes the script reads). -/

/-- A parameter value: a YAML string or a list of strings. -/
inductive PVal where
  | str (v : String)
  | list (v : List String)
deriving DecidableEq, Repr

/-- One entry of `spec.params`: possibly missing `name` and `value` keys. -/
structure Param where
  name : Option String
  value : Option PVal
deriving DecidableEq, Repr

/-- A document that has the `spec.params` structure. -/
structure PipelineRunDoc where
  params : List Param
deriving DecidableEq, Repr

/-- Python truthiness of a parameter value. -/
def pvalTruthy : PVal → Bool
  | .str v => v ≠ ""
  | .list v => v ≠ []

/-- The parameter-extraction loop of `parse_pipelinerun_from_content`
(lines 86–90): walk the params, the last assignment to each variable wins;
`output-image` takes `param.get('value')`, `build-platforms` takes
`param.get('value', [])`. -/
def scan_params : List Param → Option PVal → PVal → Option PVal × PVal
  | [], oi, pl => (oi, pl)
  | p :: rest, oi, pl =>
    if p.name == some "output-image" then scan_params rest p.value pl
    else if p.name == some "build-platforms" then scan_params rest oi (p.value.getD (.list []))
    else scan_params rest oi pl

/-- Embeds `parse_pipelinerun_from_content` (lines 65–105) applied to an already
yaml-loaded document.  Returns the (component name, architecture set) pair
together with a flag recording whether the `except` branch fired (a warning
was printed).  A falsy or structure-less document (`none`) returns no result
and no warning; a non-string `output-image` value raises in
`extract_component_name`, which the handler turns into a warning; a string
`build-platforms` value is iterated character by character, as Python would. -/
def parse_pipelinerun_from_content (data : Option PipelineRunDoc) :
    (Option String × Finset String) × Bool :=
  match data with
  | none => ((none, ∅), false)
  | some d =>
    let r := scan_params d.params none (.list [])
    let oiTruthy := match r.1 with | none => false | some v => pvalTruthy v
    if !oiTruthy || !pvalTruthy r.2 then ((none, ∅), false)
    else
      match r.1 with
      | some (.str img) =>
        let platforms := match r.2 with
          | .list l => l
          | .str s => s.data.map (fun c => String.mk [c])
        ((some (extract_component_name img),
          (platforms.map normalize_architecture).toFinset), false)
      | some (.list _) => ((none, ∅), true)
      | none => ((none, ∅), false)

/-- The result of reading and yaml-loading one file: `failed` models an
exception while reading or parsing (the `except` paths of `parse_pipelinerun`
and `parse_pipelinerun_from_content`), `loaded` a successful `yaml.safe_load`. -/
inductive ParseOutcome where
  | failed
  | loaded (data : Option PipelineRunDoc)
deriving DecidableEq

/-- Per-document parsing with its warning flag: a load failure prints a
warning and yields no result (lines 103–105 / 119–121). -/
def parse_with_warning (content : ParseOutcome) : (Option String × Finset String) × Bool :=
  match content with
  | .failed => ((none, ∅), true)
  | .loaded d => parse_pipelinerun_from_content d

/-! ## The program: the merge loop of `main` -/

/-- Python dict assignment `m[k] = v`: replace in place when the key exists,
otherwise append. -/
def dict_insert (m : List (String × Finset String)) (k : String) (v : Finset String) :
    List (String × Finset String) :=
  if m.any (fun p => p.1 == k) then m.map (fun p => if p.1 == k then (k, v) else p)
  else m ++ [(k, v)]

/-- Python dict lookup `m.get(k)`. -/
def dict_lookup (m : List (String × Finset String)) (k : String) : Option (Finset String) :=
  (m.find? (fun p => p.1 == k)).map (fun p => p.2)

/-- The file loop of `main` (lines 627–634 / 649–653): parse every file in
order, record a warning path when parsing warned, and insert the result into
the components dict when both the name and the architecture set are truthy. -/
def process_files_aux :
    List (String × Finset String) → List String → List (String × ParseOutcome) →
    List (String × Finset String) × List String
  | m, ws, [] => (m, ws)
  | m, ws, (fp, content) :: rest =>
    let r := parse_with_warning content
    let ws' := if r.2 then ws ++ [fp] else ws
    let m' := match r.1.1 with
      | some n => if n ≠ "" ∧ r.1.2 ≠ ∅ then dict_insert m n r.1.2 else m
      | none => m
    process_files_aux m' ws' rest

/-- Process a list of (path, content) pairs starting from the empty dict. -/
def process_files (files : List (String × ParseOutcome)) :
    List (String × Finset String) × List String :=
  process_files_aux [] [] files

/-! ## The program: configuration and the rules engine -/

/-- One `[[exception]]` record of the TOML configuration (missing keys are
modelled by their Python defaults: `get('architectures', [])`,
`get('issue', '')`). -/
structure ExceptionRecord where
  component : String
  architectures : List String
  issue : String
deriving DecidableEq, Repr

/-- The loaded configuration: `accelerator_incompatibility_rules` is a TOML
table (a dict in insertion order, modelled as an association list) and
`exception` a list of records. -/
structure Config where
  accelerator_incompatibility_rules : List (String × List String)
  exception : List ExceptionRecord
deriving DecidableEq, Repr

/-- Embeds `extract_issue_key` (lines 278–299). -/
def extract_issue_key (issue_url : String) : String :=
  if issue_url = "" then "XXX"
  else if strContains "/browse/" issue_url then (strSplit "/browse/" issue_url).getLastD ""
  else if strContains "-" issue_url && !(strContains "/" issue_url) then issue_url
  else "XXX"

/-- Embeds `detect_accelerator` (lines 302–313): the first rule key occurring in the
lowercased component name. -/
def detect_accelerator (component_name : String) (accelerator_rules : List (String × List String)) :
    Option String :=
  let component_lower := strLower component_name
  (accelerator_rules.find? (fun r => strContains r.1 component_lower)).map (fun r => r.1)

/-- Embeds `get_exception_for_arch` (lines 316–333): the first exception record for
this component that lists this architecture. -/
def get_exception_for_arch (component_name arch : String) (config : Config) :
    Option ExceptionRecord :=
  config.exception.find? (fun e => e.component == component_name && e.architectures.contains arch)

/-- Embeds `is_accelerator_incompatible` (lines 336–356). -/
def is_accelerator_incompatible (component_name arch : String) (config : Config) : Bool :=
  match detect_accelerator component_name config.accelerator_incompatibility_rules with
  | some accelerator =>
    let incompatible_archs :=
      ((config.accelerator_incompatibility_rules.find? (fun r => r.1 == accelerator)).map
        (fun r => r.2)).getD []
    incompatible_archs.contains arch
  | none => false

/-- Embeds `get_cell_value` (lines 359–399). -/
def get_cell_value (component_name arch : String) (built_archs : Finset String)
    (config : Config) (output_format : String) : String :=
  if arch ∈ built_archs then "Y"
  else
    match get_exception_for_arch component_name arch config with
    | some exc =>
      let issue_url := exc.issue
      let issue_key := extract_issue_key issue_url
      if output_format = "markdown" ∧ issue_url ≠ "" ∧ issue_key ≠ "XXX" then
        "[" ++ issue_key ++ "](" ++ issue_url ++ ")"
      else if output_format = "jira" ∧ issue_url ≠ "" ∧ issue_key ≠ "XXX" then
        "[" ++ issue_key ++ "|" ++ issue_url ++ "]"
      else if output_format = "csv" ∧ issue_url ≠ "" ∧ issue_key ≠ "XXX" then
        "=HYPERLINK(" ++ "\"" ++ issue_url ++ "\"" ++ "," ++ "\"" ++ issue_key ++ "\"" ++ ")"
      else issue_key
    | none =>
      if is_accelerator_incompatible component_name arch config then "N/A" else ""

/-! ## The program: table generation -/

/-- The fixed architecture columns (line 415). -/
def arch_columns : List String := ["amd64", "arm64", "ppc64le", "s390x"]

/-- Insert a component row into a list sorted by name. -/
def insert_by_name (p : String × Finset String) :
    List (String × Finset String) → List (String × Finset String)
  | [] => [p]
  | q :: rest => if p.1 ≤ q.1 then p :: q :: rest else q :: insert_by_name p rest

/-- Embeds `sorted(components.items())` (line 418): sort the rows by component name. -/
def sorted_components (components : List (String × Finset String)) :
    List (String × Finset String) :=
  components.foldr insert_by_name []

/-- The CSV cell transformation (lines 427–432): wrap formula cells in double
quotes, doubling internal double quotes; leave every other cell alone. -/
def csv_escape_cell (cell_value : String) : String :=
  if strStartsWith "=" cell_value then
    "\"" ++ strReplace "\"" "\"\"" cell_value ++ "\""
  else cell_value

/-- Embeds `max_name_len` (lines 454–455 and 502–503). -/
def max_name_len (sc : List (String × Finset String)) : Nat :=
  let m := if sc.isEmpty then 10 else (sc.map (fun p => p.1.length)).foldl Nat.max 0
  Nat.max m ("Component Image").length

/-- The display width markdown attributes to a cell when computing column
widths (lines 463–468): for a hyperlink-shaped cell, the width of
`cell.split(']')[0][1:]`; otherwise the full length. -/
def md_display_width (cell_value : String) : Nat :=
  if strStartsWith "[" cell_value && strContains "](" cell_value then
    (((strSplit "]" cell_value).headD "").data.drop 1).length
  else cell_value.length

/-- The markdown column-width loop (lines 458–469). -/
def arch_width_markdown (sc : List (String × Finset String)) (config : Config)
    (arch : String) : Nat :=
  sc.foldl (fun w p => Nat.max w (md_display_width (get_cell_value p.1 arch p.2 config "markdown")))
    arch.length

/-- The plain-text column-width loop (lines 506–512). -/
def arch_width_text (sc : List (String × Finset String)) (config : Config)
    (arch : String) : Nat :=
  sc.foldl (fun w p => Nat.max w (get_cell_value p.1 arch p.2 config "text").length) arch.length

/-- Embeds `generate_table` (lines 402–534). -/
def generate_table (components : List (String × Finset String)) (config : Config)
    (output_format : String) : String :=
  let sc := sorted_components components
  if output_format = "csv" then
    let lines := "Component Image,amd64,arm64,ppc64le,s390x" ::
      sc.map (fun p =>
        String.intercalate ","
          (p.1 :: arch_columns.map (fun arch =>
            csv_escape_cell (get_cell_value p.1 arch p.2 config "csv"))))
    String.intercalate "\n" lines
  else if output_format = "jira" then
    let lines := "|| Component Image || amd64 || arm64 || ppc64le || s390x ||" ::
      sc.map (fun p =>
        "| " ++ String.intercalate " | "
          (p.1 :: arch_columns.map (fun arch => get_cell_value p.1 arch p.2 config "jira")) ++ " |")
    String.intercalate "\n" lines
  else if output_format = "markdown" then
    let mnl := max_name_len sc
    let header := "| " ++ String.intercalate " | "
      (strLJust mnl "Component Image" ::
        arch_columns.map (fun arch => strCenter (arch_width_markdown sc config arch) arch)) ++ " |"
    let sep_parts := String.mk (List.replicate mnl '-') ::
      arch_columns.map (fun arch => String.mk (List.replicate (arch_width_markdown sc config arch) '-'))
    let separator := "|" ++ String.intercalate "|" (sep_parts.map (fun s => " " ++ s ++ " ")) ++ "|"
    let rows := sc.map (fun p =>
      "| " ++ String.intercalate " | "
        (strLJust mnl p.1 ::
          arch_columns.map (fun arch =>
            strCenter (arch_width_markdown sc config arch)
              (get_cell_value p.1 arch p.2 config "markdown"))) ++ " |")
    String.intercalate "\n" (header :: separator :: rows)
  else
    let mnl := max_name_len sc
    let header := String.intercalate "  "
      (strLJust mnl "Component Image" ::
        arch_columns.map (fun arch => strCenter (arch_width_text sc config arch) arch))
    let separator := String.mk (List.replicate header.length '-')
    let rows := sc.map (fun p =>
      String.intercalate "  "
        (strLJust mnl p.1 ::
          arch_columns.map (fun arch =>
            strCenter (arch_width_text sc config arch)
              (get_cell_value p.1 arch p.2 config "text"))))
    String.intercalate "\n" (header :: separator :: rows)

/-! ## The program: the git-based source strategy of `main` -/

/-- Insert a string into a `≤`-sorted list. -/
def insert_string (s : String) : List String → List String
  | [] => [s]
  | q :: rest => if s ≤ q then s :: q :: rest else q :: insert_string s rest

/-- Python `sorted` on a list of strings. -/
def sort_strings (l : List String) : List String := l.foldr insert_string []

/-- The filter of `find_pipelinerun_files_from_git` (lines 226–233), applied
to the path list produced by `git ls-tree -r --name-only <branch>
pipelineruns/`: keep non-empty paths containing `/.tekton/` and ending in
`.yaml`, sorted. -/
def find_pipelinerun_files_from_git (all_files : List String) : List String :=
  sort_strings (all_files.filter (fun f => f != "" && strContains "/.tekton/" f && strEndsWith ".yaml" f))

/-- The observable outcome of a run: `sys.exit(code)` or a rendered table. -/
inductive RunResult where
  | exited (code : Nat)
  | output (table : String)
deriving DecidableEq

/-- The git branch strategy of `main` (lines 602–634, 655–658):
`branch_exists` models `validate_git_branch`, `ls_tree_files` the result of
the `git ls-tree` call (`Except.error` when it raises), and `file_content`
the per-path outcome of `read_file_from_git` plus `yaml.safe_load`. -/
def run_git_strategy (branch_exists : Bool) (ls_tree_files : Except String (List String))
    (file_content : String → ParseOutcome) (config : Config) (output_format : String) :
    RunResult :=
  if !branch_exists then .exited 1
  else
    match ls_tree_files with
    | .error _ => .exited 1
    | .ok all_files =>
      let file_paths := find_pipelinerun_files_from_git all_files
      if file_paths = [] then .exited 1
      else
        let components := process_files (file_paths.map (fun f => (f, file_content f)))
        .output (generate_table components.1 config output_format)

/-! ## Specification-side definitions

Each `spec_` definition below restates a sentence of the natural-language
specification; the theorems compare them with the code-derived definitions
above. -/

/-- Spec: "the image reference with the fixed registry/namespace prefix
`quay.io/rhoai/` removed when present". -/
def strip_registry (s : String) : String :=
  if strStartsWith "quay.io/rhoai/" s then String.mk (s.data.drop ("quay.io/rhoai/").length)
  else s

/-- Spec: "the substring after the last `/` (or the whole string when no `/`
is present)": the longest `/`-free suffix. -/
def after_last_slash (s : String) : String :=
  String.mk ((s.data.reverse.takeWhile (fun x => x != '/')).reverse)

/-- Spec: normalization takes the substring after the last `/` and maps the
literal value `x86_64` to `amd64`, leaving every other value unchanged. -/
def spec_normalize_architecture (platform : String) : String :=
  let arch := after_last_slash platform
  if arch = "x86_64" then "amd64" else arch

/-- The effective `output-image` value of a document: the string value of the
last parameter with that name, when it has one. -/
def output_image_of (d : PipelineRunDoc) : Option String :=
  match d.params.reverse.find? (fun p => p.name == some "output-image") with
  | some p =>
    match p.value with
    | some (.str s) => some s
    | _ => none
  | none => none

/-- The effective `build-platforms` value of a document: the list value of
the last parameter with that name, when it has one. -/
def build_platforms_of (d : PipelineRunDoc) : Option (List String) :=
  match d.params.reverse.find? (fun p => p.name == some "build-platforms") with
  | some p =>
    match p.value with
    | some (.list l) => some l
    | _ => none
  | none => none

/-- A parameter is well-typed when an `output-image` entry carries a string
value and a `build-platforms` entry carries a list value. -/
def param_ok (p : Param) : Bool :=
  (p.name != some "output-image" ||
    match p.value with | some (.str _) => true | _ => false) &&
  (p.name != some "build-platforms" ||
    match p.value with | some (.list _) => true | _ => false)

/-- A well-formed document: every parameter is well-typed. -/
def well_formed (d : PipelineRunDoc) : Prop := ∀ p ∈ d.params, param_ok p = true

/-- Replace each character by a character list and concatenate. -/
def expandChars (f : Char → List Char) : List Char → List Char
  | [] => []
  | x :: xs => f x ++ expandChars f xs

/-- Spec: a CSV cell is a spreadsheet formula when it begins with `=`. -/
def spec_is_formula (cell : String) : Bool := strStartsWith "=" cell

/-- Spec: a formula cell "is wrapped in double quotes with each internal
double quote doubled, and no other cell … is quoted or escaped". -/
def spec_csv_quote (cell : String) : String :=
  if spec_is_formula cell then
    "\"" ++ String.mk (expandChars (fun c => if c = '"' then ['"', '"'] else [c]) cell.data) ++ "\""
  else cell

/-- Spec rendering contract for CSV: fixed header; components sorted by name;
the name cell unescaped; each architecture cell passed through
`spec_csv_quote`. -/
def spec_generate_csv (components : List (String × Finset String)) (config : Config) : String :=
  String.intercalate "\n"
    ("Component Image,amd64,arm64,ppc64le,s390x" ::
      (sorted_components components).map (fun p =>
        String.intercalate ","
          (p.1 :: arch_columns.map (fun arch =>
            spec_csv_quote (get_cell_value p.1 arch p.2 config "csv")))))

/-- The maximum of a list of widths (0 for the empty list). -/
def list_max (l : List Nat) : Nat := l.foldr Nat.max 0

/-- Spec: "the display width of a hyperlink-syntax cell (one starting with
`[` and containing `](`) counts only the link-text part": the characters
between the opening `[` and the first `]`. -/
def spec_md_display_width (cell : String) : Nat :=
  if strStartsWith "[" cell && strContains "](" cell then
    ((cell.data.drop 1).takeWhile (fun x => x != ']')).length
  else cell.length

/-- A document yields component `n` (and is kept by the merge loop) when its
parse result names `n` with a truthy name and a non-empty architecture set. -/
def yields_component (o : ParseOutcome) (n : String) : Prop :=
  (parse_with_warning o).1.1 = some n ∧ n ≠ "" ∧ (parse_with_warning o).1.2 ≠ ∅

/-! ## Lemmas about the string primitives -/

theorem splitOnAux_ne_nil (sep : List Char) (l : List Char) :
    ∀ acc skip, splitOnAux sep acc skip l ≠ [] := by
  induction l with
  | nil => intro acc skip; simp [splitOnAux]
  | cons x xs ih =>
    intro acc skip
    cases skip with
    | zero =>
      rw [splitOnAux]
      split
      · simp
      · exact ih (x :: acc) 0
    | succ k =>
      rw [splitOnAux]
      exact ih acc k

theorem splitOnAux_single_headD (c : Char) (l : List Char) :
    ∀ acc, (splitOnAux [c] acc 0 l).headD [] = acc.reverse ++ l.takeWhile (fun x => x != c) := by
  induction l with
  | nil => intro acc; simp [splitOnAux]
  | cons x xs ih =>
    intro acc
    rw [splitOnAux]
    by_cases hcx : c = x
    · subst hcx
      simp [List.isPrefixOf]
    · have hpre : [c].isPrefixOf (x :: xs) = false := by
        simp [List.isPrefixOf, hcx]
      rw [hpre]
      simp only [Bool.false_eq_true, if_false]
      rw [ih (x :: acc)]
      have hxc : (x != c) = true := by simp [bne]; exact fun h => hcx h.symm
      simp [List.takeWhile_cons, hxc]

theorem getLastD_of_ne_nil {l : List α} (h : l ≠ []) (d d' : α) :
    l.getLastD d = l.getLastD d' := by
  cases l with
  | nil => exact absurd rfl h
  | cons x xs => rw [List.getLastD_cons, List.getLastD_cons]

theorem takeWhile_append_of_neg {p : α → Bool} (a : α) (h : p a = false) (A : List α) :
    (A ++ [a]).takeWhile p = A.takeWhile p := by
  induction A with
  | nil => simp [List.takeWhile_cons, h]
  | cons x xs ih =>
    by_cases hx : p x
    · simp [List.takeWhile_cons, hx, ih]
    · simp [List.takeWhile_cons, hx]

theorem takeWhile_append_of_pos [DecidableEq α] {p : α → Bool} (a : α) (h : p a = true)
    (A : List α) :
    (A ++ [a]).takeWhile p = if A.takeWhile p = A then A ++ [a] else A.takeWhile p := by
  induction A with
  | nil => simp [h]
  | cons x xs ih =>
    rw [List.cons_append]
    by_cases hx : p x = true
    · rw [List.takeWhile_cons_of_pos hx, List.takeWhile_cons_of_pos hx, ih]
      by_cases hxs : xs.takeWhile p = xs
      · rw [if_pos hxs, if_pos (by rw [hxs])]
      · have hne : x :: xs.takeWhile p ≠ x :: xs := fun hc => hxs (by injection hc)
        rw [if_neg hxs, if_neg hne]
    · rw [List.takeWhile_cons_of_neg hx, List.takeWhile_cons_of_neg hx,
        if_neg (by simp : ¬(([] : List α) = x :: xs))]

theorem takeWhile_ne_self_of_mem {p : α → Bool} {a : α} {l : List α}
    (hmem : a ∈ l) (h : p a = false) : l.takeWhile p ≠ l := by
  intro heq
  have := List.mem_takeWhile_imp (heq ▸ hmem)
  rw [h] at this
  exact Bool.false_ne_true this

theorem takeWhile_eq_self_of_forall {p : α → Bool} {l : List α}
    (h : ∀ a ∈ l, p a = true) : l.takeWhile p = l := by
  induction l with
  | nil => rfl
  | cons x xs ih =>
    have hx := h x (List.mem_cons_self x xs)
    simp [List.takeWhile_cons, hx, ih fun a ha => h a (List.mem_cons_of_mem x ha)]

theorem splitOnAux_single_getLastD (c : Char) (l : List Char) :
    ∀ acc, (splitOnAux [c] acc 0 l).getLastD [] =
      if c ∈ l then (l.reverse.takeWhile (fun x => x != c)).reverse
      else acc.reverse ++ l := by
  induction l with
  | nil => intro acc; simp [splitOnAux]
  | cons x xs ih =>
    intro acc
    rw [splitOnAux]
    by_cases hcx : c = x
    · subst hcx
      have hpre : [c].isPrefixOf (c :: xs) = true := by simp [List.isPrefixOf]
      rw [hpre]
      simp only [if_true]
      have hlen : [c].length - 1 = 0 := rfl
      rw [hlen]
      rw [List.getLastD_cons]
      rw [getLastD_of_ne_nil (splitOnAux_ne_nil [c] xs [] 0) acc.reverse []]
      rw [ih []]
      have hfold : (xs.reverse ++ [c]).takeWhile (fun x => x != c) =
          xs.reverse.takeWhile (fun x => x != c) :=
        takeWhile_append_of_neg c (by simp) xs.reverse
      by_cases hmem : c ∈ xs
      · simp only [hmem, if_true, List.mem_cons, true_or, List.reverse_cons]
        rw [hfold]
      · simp only [hmem, Bool.false_eq_true, if_false, List.nil_append, List.mem_cons,
          true_or, if_true, List.reverse_cons]
        rw [hfold]
        rw [takeWhile_eq_self_of_forall (l := xs.reverse)
          (fun a ha => by
            have : a ∈ xs := List.mem_reverse.mp ha
            have hac : a ≠ c := fun h => hmem (h ▸ this)
            simp [bne, hac])]
        simp
    · have hpre : [c].isPrefixOf (x :: xs) = false := by simp [List.isPrefixOf, hcx]
      rw [hpre]
      simp only [Bool.false_eq_true, if_false]
      rw [ih (x :: acc)]
      have hmemx : (c ∈ x :: xs) = (c ∈ xs) := by
        simp [List.mem_cons, hcx]
      by_cases hmem : c ∈ xs
      · simp only [hmem, if_true, hmemx, List.reverse_cons]
        have : (xs.reverse ++ [x]).takeWhile (fun y => y != c) =
            if xs.reverse.takeWhile (fun y => y != c) = xs.reverse then xs.reverse ++ [x]
            else xs.reverse.takeWhile (fun y => y != c) :=
          takeWhile_append_of_pos x (by simp [bne]; exact fun h => hcx h.symm) xs.reverse
        rw [this]
        have hne : xs.reverse.takeWhile (fun y => y != c) ≠ xs.reverse :=
          takeWhile_ne_self_of_mem (List.mem_reverse.mpr hmem) (by simp)
        simp [hne]
      · simp only [hmem, Bool.false_eq_true, if_false, hmemx]
        simp

theorem contains_single_iff (c : Char) (l : List Char) :
    (l.tails.any fun t => [c].isPrefixOf t) = true ↔ c ∈ l := by
  induction l with
  | nil => simp [List.tails, List.isPrefixOf]
  | cons x xs ih =>
    rw [List.tails_cons]
    simp only [List.any_cons, Bool.or_eq_true, ih, List.mem_cons]
    constructor
    · rintro (h | h)
      · simp only [List.isPrefixOf, Bool.and_eq_true, beq_iff_eq] at h
        exact Or.inl h.1
      · exact Or.inr h
    · rintro (h | h)
      · exact Or.inl (by simp [List.isPrefixOf, h])
      · exact Or.inr h

theorem strContains_single_iff (c : Char) (s : String) :
    strContains (String.mk [c]) s = true ↔ c ∈ s.data := by
  exact contains_single_iff c s.data

theorem headD_map_mk (l : List (List Char)) :
    (l.map String.mk).headD "" = String.mk (l.headD []) := by
  cases l <;> rfl

theorem getLastD_map_mk (l : List (List Char)) :
    ∀ d, (l.map String.mk).getLastD (String.mk d) = String.mk (l.getLastD d) := by
  induction l with
  | nil => intro d; rfl
  | cons x xs ih =>
    intro d
    rw [List.map_cons, List.getLastD_cons, List.getLastD_cons]
    exact ih x

theorem dropWhile_head_false {p : α → Bool} :
    ∀ {l : List α} {y : α} {ys : List α}, l.dropWhile p = y :: ys → p y = false := by
  intro l
  induction l with
  | nil => intro y ys h; simp [List.dropWhile] at h
  | cons x xs ih =>
    intro y ys h
    rw [List.dropWhile_cons] at h
    by_cases hx : p x = true
    · rw [if_pos hx] at h; exact ih h
    · rw [if_neg hx] at h
      injection h with h1 _
      subst h1
      exact Bool.eq_false_iff.mpr hx

theorem intercalate_cons_of_ne_nil (sep a : List α) {l : List (List α)} (h : l ≠ []) :
    List.intercalate sep (a :: l) = a ++ sep ++ List.intercalate sep l := by
  cases l with
  | nil => exact absurd rfl h
  | cons b bs =>
    simp [List.intercalate, List.intersperse_cons_cons, List.append_assoc]

theorem intercalate_splitOnAux_single (c : Char) (new : List Char) (l : List Char) :
    ∀ acc, List.intercalate new (splitOnAux [c] acc 0 l) =
      acc.reverse ++ expandChars (fun x => if x = c then new else [x]) l := by
  induction l with
  | nil => intro acc; simp [splitOnAux, List.intercalate, expandChars]
  | cons x xs ih =>
    intro acc
    rw [splitOnAux]
    by_cases hcx : c = x
    · subst hcx
      have hpre : [c].isPrefixOf (c :: xs) = true := by simp [List.isPrefixOf]
      rw [hpre]
      simp only [if_true]
      have hlen : [c].length - 1 = 0 := rfl
      rw [hlen]
      rw [intercalate_cons_of_ne_nil new acc.reverse (splitOnAux_ne_nil [c] xs [] 0)]
      rw [ih []]
      simp [expandChars, List.append_assoc]
    · have hpre : [c].isPrefixOf (x :: xs) = false := by simp [List.isPrefixOf, hcx]
      rw [hpre]
      simp only [Bool.false_eq_true, if_false]
      rw [ih (x :: acc)]
      have hx : (if x = c then new else [x]) = [x] := if_neg (fun h => hcx h.symm)
      simp [expandChars, hx, List.append_assoc]

theorem foldl_max_eq (l : List Nat) : ∀ a : Nat, l.foldl Nat.max a = Nat.max a (list_max l) := by
  induction l with
  | nil => intro a; simp [list_max]
  | cons x xs ih =>
    intro a
    rw [List.foldl_cons, ih]
    show Nat.max (Nat.max a x) (list_max xs) = Nat.max a (list_max (x :: xs))
    rw [show list_max (x :: xs) = Nat.max x (list_max xs) from rfl]
    exact Nat.max_assoc a x (list_max xs)

theorem le_list_max {x : Nat} {l : List Nat} (h : x ∈ l) : x ≤ list_max l := by
  induction l with
  | nil => cases h
  | cons y ys ih =>
    rw [show list_max (y :: ys) = Nat.max y (list_max ys) from rfl]
    rcases List.mem_cons.mp h with h | h
    · subst h; exact Nat.le_max_left _ _
    · exact Nat.le_trans (ih h) (Nat.le_max_right _ _)

/-- Rewrites `extract_component_name` in terms of the spec-side prefix stripper (the
two definitions share the stripping expression verbatim). -/
theorem extract_component_name_eq (s : String) :
    extract_component_name s =
      if strContains ":" (strip_registry s) then
        (strSplit ":" (strip_registry s)).headD ""
      else strip_registry s := rfl

/-! ## Claim theorems -/

/-- C2: the derived component identifier is the image reference with the
`quay.io/rhoai/` prefix removed when present and the trailing `:`-delimited
tag removed, and nothing else removed: the identifier contains no `:`, the
prefix-stripped reference is the identifier followed by a remainder that is
empty or starts at the tag delimiter `:`, and an input with no prefix and no
`:` is returned unchanged. -/
theorem claim_C2 (s : String) :
    strContains ":" (extract_component_name s) = false ∧
    (∃ t : String, strip_registry s = extract_component_name s ++ t ∧
      (t = "" ∨ strStartsWith ":" t = true)) ∧
    (strStartsWith "quay.io/rhoai/" s = false → strContains ":" s = false →
      extract_component_name s = s) := by
  by_cases hc : strContains ":" (strip_registry s) = true
  · have hdata : (extract_component_name s).data =
        (strip_registry s).data.takeWhile (fun x => x != ':') := by
      rw [extract_component_name_eq, if_pos hc, strSplit, headD_map_mk, pySplit,
        splitOnAux_single_headD]
      simp
    refine ⟨?_, ⟨String.mk ((strip_registry s).data.dropWhile (fun x => x != ':')),
      ?_, ?_⟩, ?_⟩
    · apply Bool.eq_false_iff.mpr
      intro h
      have hm : ':' ∈ (extract_component_name s).data :=
        (strContains_single_iff ':' (extract_component_name s)).mp h
      rw [hdata] at hm
      have := List.mem_takeWhile_imp hm
      simp at this
    · apply String.ext
      rw [String.data_append, hdata]
      show (strip_registry s).data = _ ++ (String.mk _).data
      rw [show ∀ l : List Char, (String.mk l).data = l from fun _ => rfl]
      exact (List.takeWhile_append_dropWhile _ _).symm
    · cases hdw : (strip_registry s).data.dropWhile (fun x => x != ':') with
      | nil => exact Or.inl (String.ext rfl)
      | cons y ys =>
        refine Or.inr ?_
        have hy := dropWhile_head_false hdw
        have hy' : y = ':' := by simpa using hy
        subst hy'
        rw [show ∀ l : List Char, strStartsWith ":" (String.mk l) = [':'].isPrefixOf l
          from fun _ => rfl]
        simp [List.isPrefixOf]
    · intro h1 h2
      have hn : strip_registry s = s := by
        rw [strip_registry, if_neg (by rw [h1]; exact Bool.false_ne_true)]
      rw [hn] at hc
      exact absurd hc (by rw [h2]; exact Bool.false_ne_true)
  · have hn : extract_component_name s = strip_registry s := by
      rw [extract_component_name_eq, if_neg hc]
    refine ⟨?_, ⟨"", ?_, Or.inl rfl⟩, ?_⟩
    · rw [hn]
      exact Bool.eq_false_iff.mpr hc
    · rw [hn]
      exact String.ext (by rw [String.data_append]; simp)
    · intro h1 h2
      rw [hn, strip_registry, if_neg (by rw [h1]; exact Bool.false_ne_true)]

/-- C2 witness: an input with no registry prefix and no tag delimiter is
returned unchanged. -/
theorem witness_C2 :
    strStartsWith "quay.io/rhoai/" "odh-operator" = false ∧
    strContains ":" "odh-operator" = false ∧
    extract_component_name "odh-operator" = "odh-operator" :=
  ⟨by decide, by decide, (claim_C2 "odh-operator").2.2 (by decide) (by decide)⟩

/-- C3: architecture normalization returns the substring after the last `/`
(the whole string when no `/` is present), mapping the literal `x86_64` to
`amd64` and leaving every other value unchanged. -/
theorem claim_C3 (platform : String) :
    normalize_architecture platform = spec_normalize_architecture platform := by
  have key : (if strContains "/" platform then (strSplit "/" platform).getLastD ""
      else platform) = after_last_slash platform := by
    by_cases hc : strContains "/" platform = true
    · rw [if_pos hc, strSplit,
        show ("" : String) = String.mk [] from rfl, getLastD_map_mk, pySplit,
        splitOnAux_single_getLastD]
      have hm : '/' ∈ platform.data := (strContains_single_iff '/' platform).mp hc
      rw [if_pos hm]
      rfl
    · rw [if_neg hc, after_last_slash]
      have hm : '/' ∉ platform.data :=
        fun h => hc ((strContains_single_iff '/' platform).mpr h)
      apply String.ext
      show platform.data = ((platform.data.reverse.takeWhile fun x => x != '/').reverse)
      rw [takeWhile_eq_self_of_forall (l := platform.data.reverse)
        (fun a ha => by
          have : a ∈ platform.data := List.mem_reverse.mp ha
          have hac : a ≠ '/' := fun h => hm (h ▸ this)
          simp [hac])]
      rw [List.reverse_reverse]
  rw [normalize_architecture, spec_normalize_architecture]
  show (if (if strContains "/" platform then (strSplit "/" platform).getLastD ""
      else platform) = "x86_64" then "amd64"
    else (if strContains "/" platform then (strSplit "/" platform).getLastD "" else platform)) = _
  rw [key]

/-- C9: an architecture in the component's built set always renders `Y`;
no exception record or accelerator rule can override it. -/
theorem claim_C9 (component_name arch : String) (built_archs : Finset String)
    (config : Config) (output_format : String) (h : arch ∈ built_archs) :
    get_cell_value component_name arch built_archs config output_format = "Y" := by
  rw [get_cell_value, if_pos h]

/-- C9 witness: even with an exception record and an accelerator rule aimed
at this very component and architecture, a built architecture renders `Y`. -/
theorem witness_C9 :
    "amd64" ∈ ({"amd64"} : Finset String) ∧
    get_cell_value "odh-gaudi-op" "amd64" {"amd64"}
        (Config.mk [("gaudi", ["amd64"])]
          [ExceptionRecord.mk "odh-gaudi-op" ["amd64"] "https://i/browse/K-1"]) "csv" = "Y" :=
  ⟨by decide, claim_C9 _ _ _ _ _ (by decide)⟩

/-- The CSV escaping of the code agrees with the spec's description cell by
cell: formula cells are quoted with internal quotes doubled, all others are
left untouched. -/
theorem csv_escape_eq_spec (cell : String) : csv_escape_cell cell = spec_csv_quote cell := by
  rw [csv_escape_cell, spec_csv_quote, spec_is_formula]
  by_cases h : strStartsWith "=" cell = true
  · rw [if_pos h, if_pos h]
    have hrep : strReplace "\"" "\"\"" cell =
        String.mk (expandChars (fun c => if c = '"' then ['"', '"'] else [c]) cell.data) := by
      rw [strReplace, show ("\"" : String).data = ['"'] from rfl,
        show ("\"\"" : String).data = ['"', '"'] from rfl, pySplit,
        intercalate_splitOnAux_single]
      simp
    rw [hrep]
  · rw [if_neg h, if_neg h]

/-- C7: in CSV output, exactly the formula cells (those beginning with `=`)
are wrapped in double quotes with internal double quotes doubled; the header
line, the component-name cells and all other cells are emitted verbatim. -/
theorem claim_C7 (components : List (String × Finset String)) (config : Config) :
    generate_table components config "csv" = spec_generate_csv components config := by
  simp only [generate_table, spec_generate_csv, csv_escape_eq_spec, if_true]

/-- The fold computing a column width equals the maximum of its start value
and the list maximum of the contributed widths. -/
theorem foldl_max_f (f : α → Nat) (l : List α) :
    ∀ a : Nat, l.foldl (fun w p => Nat.max w (f p)) a = Nat.max a (list_max (l.map f)) := by
  induction l with
  | nil => intro a; simp [list_max]
  | cons x xs ih =>
    intro a
    rw [List.foldl_cons, ih, List.map_cons,
      show list_max (f x :: xs.map f) = Nat.max (f x) (list_max (xs.map f)) from rfl]
    exact Nat.max_assoc a (f x) (list_max (xs.map f))

/-- The markdown display-width computation of the code (`split(']')[0][1:]`)
agrees with the spec's "link-text part" reading. -/
theorem md_display_width_eq_spec (cell : String) :
    md_display_width cell = spec_md_display_width cell := by
  rw [md_display_width, spec_md_display_width]
  by_cases h : (strStartsWith "[" cell && strContains "](" cell) = true
  · rw [if_pos h, if_pos h]
    have hstart : strStartsWith "[" cell = true := by
      simp only [Bool.and_eq_true] at h
      exact h.1
    obtain ⟨rest, hrest⟩ : ∃ rest, cell.data = '[' :: rest := by
      rw [strStartsWith, show ("[" : String).data = ['['] from rfl] at hstart
      obtain ⟨t, ht⟩ := List.isPrefixOf_iff_prefix.mp hstart
      exact ⟨t, ht.symm⟩
    rw [strSplit, headD_map_mk, show ("]" : String).data = [']'] from rfl, pySplit,
      splitOnAux_single_headD]
    simp only [List.reverse_nil, List.nil_append,
      show ∀ l : List Char, (String.mk l).data = l from fun _ => rfl]
    rw [hrest, List.takeWhile_cons]
    simp
  · rw [if_neg h, if_neg h]

/-- A centred cell whose content is no wider than the target width occupies
exactly the target width. -/
theorem strCenter_length (w : Nat) (s : String) (h : s.length ≤ w) :
    (strCenter w s).length = w := by
  rw [strCenter]
  simp only [String.length_append, String.length_mk, List.length_replicate]
  omega

/-- In general a centred cell occupies the larger of the target width and its
own raw length: centring a cell wider than the target is a no-op. -/
theorem strCenter_length_eq_max (w : Nat) (s : String) :
    (strCenter w s).length = Nat.max w s.length := by
  rcases Nat.le_total s.length w with h | h
  · rw [strCenter_length w s h]
    exact (Nat.max_eq_left h).symm
  · have hm : Nat.max w s.length = s.length := Nat.max_eq_right h
    rw [strCenter, hm]
    simp only [String.length_append, String.length_mk, List.length_replicate]
    omega

/-- C8 counterexample: in a concrete markdown table, the column width is 5
(the header `amd64`; the hyperlink cell counts only its 3-character link
text), but the rendered hyperlink cell occupies its raw 27 characters — it is
not padded to the column width, refuting the claim's "every cell in the
rendered column is padded to that width" for markdown. -/
theorem counterexample_C8 :
    arch_width_markdown (sorted_components [("odh-a", (∅ : Finset String))])
        (Config.mk [] [ExceptionRecord.mk "odh-a" ["amd64"] "https://x/browse/K-1"])
        "amd64" = 5 ∧
    (strCenter
        (arch_width_markdown (sorted_components [("odh-a", (∅ : Finset String))])
          (Config.mk [] [ExceptionRecord.mk "odh-a" ["amd64"] "https://x/browse/K-1"]) "amd64")
        (get_cell_value "odh-a" "amd64" ∅
          (Config.mk [] [ExceptionRecord.mk "odh-a" ["amd64"] "https://x/browse/K-1"])
          "markdown")).length = 27 := by
  decide

/-- C8 (amended): in markdown and plain text, each architecture column's
width is the maximum, over the column header and the column's cells, of the
cell's display width (markdown counting only the link text of
hyperlink-syntax cells); every cell is centred to that width, occupying
exactly the column width whenever its raw length does not exceed it — always
the case in plain text — while a markdown cell whose raw length exceeds the
column width is left unpadded at its raw length. -/
theorem claim_C8 (components : List (String × Finset String)) (config : Config)
    (arch : String) :
    (arch_width_markdown (sorted_components components) config arch =
      Nat.max arch.length (list_max ((sorted_components components).map
        (fun p => spec_md_display_width (get_cell_value p.1 arch p.2 config "markdown"))))) ∧
    (arch_width_text (sorted_components components) config arch =
      Nat.max arch.length (list_max ((sorted_components components).map
        (fun p => (get_cell_value p.1 arch p.2 config "text").length)))) ∧
    (∀ p ∈ sorted_components components,
      (strCenter (arch_width_text (sorted_components components) config arch)
          (get_cell_value p.1 arch p.2 config "text")).length =
        arch_width_text (sorted_components components) config arch) ∧
    (∀ p ∈ sorted_components components,
      (strCenter (arch_width_markdown (sorted_components components) config arch)
          (get_cell_value p.1 arch p.2 config "markdown")).length =
        Nat.max (arch_width_markdown (sorted_components components) config arch)
          (get_cell_value p.1 arch p.2 config "markdown").length) := by
  refine ⟨?_, ?_, ?_, ?_⟩
  · rw [arch_width_markdown, foldl_max_f]
    simp only [md_display_width_eq_spec]
  · rw [arch_width_text, foldl_max_f]
  · intro p hp
    apply strCenter_length
    rw [arch_width_text, foldl_max_f]
    refine Nat.le_trans ?_ (Nat.le_max_right arch.length _)
    exact le_list_max (List.mem_map_of_mem _ hp)
  · intro p hp
    exact strCenter_length_eq_max _ _

/-- C8 witness: in a concrete one-component table the plain-text cell centred
to the column width occupies exactly the column width. -/
theorem witness_C8 :
    (("odh-a", ({"amd64"} : Finset String)) ∈
      sorted_components [("odh-a", ({"amd64"} : Finset String))]) ∧
    (strCenter (arch_width_text (sorted_components [("odh-a", ({"amd64"} : Finset String))])
        (Config.mk [] []) "amd64")
        (get_cell_value "odh-a" "amd64" {"amd64"} (Config.mk [] []) "text")).length =
      arch_width_text (sorted_components [("odh-a", ({"amd64"} : Finset String))])
        (Config.mk [] []) "amd64" :=
  ⟨by decide,
    (claim_C8 [("odh-a", ({"amd64"} : Finset String))] (Config.mk [] []) "amd64").2.2.1
      ("odh-a", ({"amd64"} : Finset String)) (by decide)⟩

theorem find?_append_cases (f : α → Bool) (l₁ l₂ : List α) :
    (l₁ ++ l₂).find? f =
      match l₁.find? f with
      | some x => some x
      | none => l₂.find? f := by
  induction l₁ with
  | nil => simp
  | cons x xs ih =>
    simp only [List.cons_append, List.find?_cons]
    cases hfx : f x <;> simp [ih]

/-- The first accumulator of the parameter loop is the value of the last
`output-image` parameter, or the initial value when there is none. -/
theorem scan_params_fst (ps : List Param) :
    ∀ oi pl, (scan_params ps oi pl).1 =
      match ps.reverse.find? (fun p => p.name == some "output-image") with
      | some p => p.value
      | none => oi := by
  induction ps with
  | nil => intro oi pl; rfl
  | cons q rest ih =>
    intro oi pl
    rw [scan_params, List.reverse_cons, find?_append_cases]
    by_cases hq : (q.name == some "output-image") = true
    · rw [if_pos hq, ih]
      cases hr : rest.reverse.find? (fun p => p.name == some "output-image") with
      | some p => rfl
      | none => simp [List.find?, hq]
    · rw [if_neg hq]
      by_cases hb : (q.name == some "build-platforms") = true
      · rw [if_pos hb, ih]
        cases hr : rest.reverse.find? (fun p => p.name == some "output-image") with
        | some p => rfl
        | none => simp [List.find?, hq]
      · rw [if_neg hb, ih]
        cases hr : rest.reverse.find? (fun p => p.name == some "output-image") with
        | some p => rfl
        | none => simp [List.find?, hq]

/-- The second accumulator of the parameter loop is the value (with a `[]`
default) of the last `build-platforms` parameter, or the initial value. -/
theorem scan_params_snd (ps : List Param) :
    ∀ oi pl, (scan_params ps oi pl).2 =
      match ps.reverse.find? (fun p => p.name == some "build-platforms") with
      | some p => p.value.getD (.list [])
      | none => pl := by
  induction ps with
  | nil => intro oi pl; rfl
  | cons q rest ih =>
    intro oi pl
    rw [scan_params, List.reverse_cons, find?_append_cases]
    by_cases hq : (q.name == some "output-image") = true
    · have hb : (q.name == some "build-platforms") = false := by
        simp only [beq_iff_eq] at hq ⊢
        rw [hq]
        simp
      rw [if_pos hq, ih]
      cases hr : rest.reverse.find? (fun p => p.name == some "build-platforms") with
      | some p => rfl
      | none => simp [List.find?, hb]
    · rw [if_neg hq]
      by_cases hb : (q.name == some "build-platforms") = true
      · rw [if_pos hb, ih]
        cases hr : rest.reverse.find? (fun p => p.name == some "build-platforms") with
        | some p => rfl
        | none => simp [List.find?, hb]
      · rw [if_neg hb, ih]
        cases hr : rest.reverse.find? (fun p => p.name == some "build-platforms") with
        | some p => rfl
        | none => simp [List.find?, hb]

/-- C4: on a well-formed document, parsing yields no result exactly when the
`output-image` or `build-platforms` parameter is absent or empty; when both
are present and non-empty it yields the derived component name and the
normalized architecture set. -/
theorem claim_C4 (d : PipelineRunDoc) (hwf : well_formed d) :
    ((parse_pipelinerun_from_content (some d)).1 = (none, ∅) ↔
      (output_image_of d = none ∨ output_image_of d = some "" ∨
        build_platforms_of d = none ∨ build_platforms_of d = some [])) ∧
    (∀ img ps, output_image_of d = some img → img ≠ "" →
      build_platforms_of d = some ps → ps ≠ [] →
      (parse_pipelinerun_from_content (some d)).1 =
        (some (extract_component_name img), (ps.map normalize_architecture).toFinset)) := by
  have hfst := scan_params_fst d.params none (.list [])
  have hsnd := scan_params_snd d.params none (.list [])
  cases hoi : d.params.reverse.find? (fun p => p.name == some "output-image") with
  | none =>
    have h1 : (scan_params d.params none (.list [])).1 = none := by rw [hfst, hoi]
    have hout : output_image_of d = none := by simp [output_image_of, hoi]
    refine ⟨⟨fun _ => Or.inl hout, fun _ => ?_⟩, fun img ps himg _ _ _ => ?_⟩
    · simp [parse_pipelinerun_from_content, h1]
    · rw [hout] at himg; cases himg
  | some p =>
    have hname : p.name = some "output-image" := by simpa using List.find?_some hoi
    have hmem : p ∈ d.params := List.mem_reverse.mp (List.mem_of_find?_eq_some hoi)
    have hmatch : (match p.value with | some (.str _) => true | _ => false) = true := by
      have h2 := hwf p hmem
      rw [param_ok, Bool.and_eq_true] at h2
      have h3 := h2.1
      rw [hname] at h3
      simpa using h3
    obtain ⟨s, hval⟩ : ∃ s, p.value = some (PVal.str s) := by
      cases hv : p.value with
      | none => rw [hv] at hmatch; exact absurd hmatch (by simp)
      | some v =>
        cases v with
        | str s => exact ⟨s, rfl⟩
        | list l => rw [hv] at hmatch; exact absurd hmatch (by simp)
    have h1 : (scan_params d.params none (.list [])).1 = some (PVal.str s) := by
      rw [hfst, hoi]; exact hval
    have hout : output_image_of d = some s := by simp [output_image_of, hoi, hval]
    cases hbp : d.params.reverse.find? (fun p => p.name == some "build-platforms") with
    | none =>
      have h2 : (scan_params d.params none (.list [])).2 = PVal.list [] := by rw [hsnd, hbp]
      have hplat : build_platforms_of d = none := by simp [build_platforms_of, hbp]
      refine ⟨⟨fun _ => Or.inr (Or.inr (Or.inl hplat)), fun _ => ?_⟩,
        fun img ps _ _ hps _ => ?_⟩
      · simp [parse_pipelinerun_from_content, h1, h2, pvalTruthy]
      · rw [hplat] at hps; cases hps
    | some q =>
      have hqname : q.name = some "build-platforms" := by simpa using List.find?_some hbp
      have hqmem : q ∈ d.params := List.mem_reverse.mp (List.mem_of_find?_eq_some hbp)
      have hqmatch : (match q.value with | some (.list _) => true | _ => false) = true := by
        have h2 := hwf q hqmem
        rw [param_ok, Bool.and_eq_true] at h2
        have h3 := h2.2
        rw [hqname] at h3
        simpa using h3
      obtain ⟨l, hqval⟩ : ∃ l, q.value = some (PVal.list l) := by
        cases hv : q.value with
        | none => rw [hv] at hqmatch; exact absurd hqmatch (by simp)
        | some v =>
          cases v with
          | str s => rw [hv] at hqmatch; exact absurd hqmatch (by simp)
          | list l => exact ⟨l, rfl⟩
      have h2 : (scan_params d.params none (.list [])).2 = PVal.list l := by
        rw [hsnd, hbp]
        show q.value.getD (PVal.list []) = PVal.list l
        rw [hqval]
        rfl
      have hplat : build_platforms_of d = some l := by
        simp [build_platforms_of, hbp, hqval]
      by_cases hs : s = ""
      · subst hs
        refine ⟨⟨fun _ => Or.inr (Or.inl hout), fun _ => ?_⟩,
          fun img ps himg himgne _ _ => ?_⟩
        · simp [parse_pipelinerun_from_content, h1, h2, pvalTruthy]
        · rw [hout] at himg
          injection himg with h
          exact absurd h.symm himgne
      · by_cases hl : l = []
        · subst hl
          refine ⟨⟨fun _ => Or.inr (Or.inr (Or.inr hplat)), fun _ => ?_⟩,
            fun img ps _ _ hps hpsne => ?_⟩
          · simp [parse_pipelinerun_from_content, h1, h2, pvalTruthy]
          · rw [hplat] at hps
            injection hps with h
            exact absurd h.symm hpsne
        · have hres : (parse_pipelinerun_from_content (some d)).1 =
              (some (extract_component_name s), (l.map normalize_architecture).toFinset) := by
            simp [parse_pipelinerun_from_content, h1, h2, pvalTruthy, hs, hl]
          refine ⟨⟨fun hcontra => ?_, fun hdisj => ?_⟩, fun img ps himg _ hps _ => ?_⟩
          · rw [hres] at hcontra
            injection hcontra with ha _
            cases ha
          · rcases hdisj with h | h | h | h
            · rw [hout] at h; cases h
            · rw [hout] at h; injection h with h; exact absurd h hs
            · rw [hplat] at h; cases h
            · rw [hplat] at h; injection h with h; exact absurd h hl
          · rw [hout] at himg
            injection himg with himg
            rw [hplat] at hps
            injection hps with hps
            rw [hres, himg, hps]

/-- A well-formed sample document carrying both parameters. -/
def sample_doc : PipelineRunDoc :=
  ⟨[Param.mk (some "output-image") (some (.str "quay.io/rhoai/odh-a:tag")),
    Param.mk (some "build-platforms") (some (.list ["linux/x86_64", "linux/arm64"]))]⟩

/-- C4 witness: the sample document is well-formed and parses to its derived
component name and normalized architecture set. -/
theorem witness_C4 :
    well_formed sample_doc ∧
    (parse_pipelinerun_from_content (some sample_doc)).1 =
      (some (extract_component_name "quay.io/rhoai/odh-a:tag"),
        (["linux/x86_64", "linux/arm64"].map normalize_architecture).toFinset) :=
  ⟨by unfold well_formed; decide,
    (claim_C4 sample_doc (by unfold well_formed; decide)).2 "quay.io/rhoai/odh-a:tag"
      ["linux/x86_64", "linux/arm64"] (by decide) (by decide) (by decide) (by decide)⟩

/-- One step of the file loop, written out. -/
theorem process_files_aux_cons (m : List (String × Finset String)) (ws : List String)
    (fp : String) (c : ParseOutcome) (rest : List (String × ParseOutcome)) :
    process_files_aux m ws ((fp, c) :: rest) =
      process_files_aux
        (match (parse_with_warning c).1.1 with
         | some n =>
           if n ≠ "" ∧ (parse_with_warning c).1.2 ≠ ∅
             then dict_insert m n (parse_with_warning c).1.2 else m
         | none => m)
        (if (parse_with_warning c).2 then ws ++ [fp] else ws) rest := rfl

theorem process_files_aux_append (l₁ l₂ : List (String × ParseOutcome)) :
    ∀ m ws, process_files_aux m ws (l₁ ++ l₂) =
      process_files_aux (process_files_aux m ws l₁).1 (process_files_aux m ws l₁).2 l₂ := by
  induction l₁ with
  | nil => intro m ws; rfl
  | cons x rest ih =>
    obtain ⟨fp, c⟩ := x
    intro m ws
    rw [List.cons_append, process_files_aux_cons, process_files_aux_cons]
    exact ih _ _

/-- The components dict built by the loop does not depend on the warning
accumulator. -/
theorem process_files_aux_fst_ws (l : List (String × ParseOutcome)) :
    ∀ m ws ws', (process_files_aux m ws l).1 = (process_files_aux m ws' l).1 := by
  induction l with
  | nil => intro m ws ws'; rfl
  | cons x rest ih =>
    obtain ⟨fp, c⟩ := x
    intro m ws ws'
    rw [process_files_aux_cons, process_files_aux_cons]
    exact ih _ _ _

/-- The warnings of the loop are exactly the paths of documents whose
parsing warned, in order, independent of the dict state. -/
theorem process_files_aux_snd (l : List (String × ParseOutcome)) :
    ∀ m ws, (process_files_aux m ws l).2 =
      ws ++ l.filterMap
        (fun p => if (parse_with_warning p.2).2 = true then some p.1 else none) := by
  induction l with
  | nil => intro m ws; simp [process_files_aux]
  | cons x rest ih =>
    obtain ⟨fp, c⟩ := x
    intro m ws
    rw [process_files_aux_cons, ih, List.filterMap_cons]
    by_cases hw : (parse_with_warning c).2 = true
    · rw [if_pos hw, if_pos hw]
      simp
    · rw [if_neg hw, if_neg hw]

theorem find?_map_update_self (m : List (String × Finset String)) (k : String)
    (v : Finset String) (hany : m.any (fun p => p.1 == k) = true) :
    (m.map (fun p => if p.1 == k then (k, v) else p)).find? (fun p => p.1 == k) =
      some (k, v) := by
  induction m with
  | nil => simp at hany
  | cons q rest ih =>
    rw [List.map_cons]
    by_cases hq : (q.1 == k) = true
    · rw [if_pos hq]
      simp [List.find?]
    · rw [if_neg hq]
      simp only [List.find?_cons]
      have hqf : (q.1 == k) = false := by simpa using hq
      rw [hqf]
      apply ih
      rw [List.any_cons] at hany
      simpa [hq] using hany

theorem find?_map_update_ne (m : List (String × Finset String)) (k : String)
    (v : Finset String) (n : String) (h : k ≠ n) :
    (m.map (fun p => if p.1 == k then (k, v) else p)).find? (fun p => p.1 == n) =
      m.find? (fun p => p.1 == n) := by
  induction m with
  | nil => rfl
  | cons q rest ih =>
    rw [List.map_cons]
    by_cases hq : (q.1 == k) = true
    · have hq1 : q.1 = k := by simpa using hq
      rw [if_pos hq]
      simp only [List.find?_cons]
      rw [show ((k, v).1 == n) = false from by simp [h],
        show (q.1 == n) = false from by simp [hq1, h]]
      exact ih
    · rw [if_neg hq]
      simp only [List.find?_cons]
      cases hqn : (q.1 == n) with
      | true => rfl
      | false => exact ih

/-- Looking up the inserted key finds the inserted value. -/
theorem dict_lookup_insert_self (m : List (String × Finset String)) (k : String)
    (v : Finset String) : dict_lookup (dict_insert m k v) k = some v := by
  rw [dict_insert, dict_lookup]
  by_cases hany : m.any (fun p => p.1 == k) = true
  · rw [if_pos hany, find?_map_update_self m k v hany]
    rfl
  · rw [if_neg hany, find?_append_cases]
    have hnone : m.find? (fun p => p.1 == k) = none := by
      rw [List.find?_eq_none]
      intro x hx hpx
      exact hany (List.any_eq_true.mpr ⟨x, hx, hpx⟩)
    rw [hnone]
    simp [List.find?]

/-- Inserting under a different key does not change a lookup. -/
theorem dict_lookup_insert_ne (m : List (String × Finset String)) (k : String)
    (v : Finset String) (n : String) (h : k ≠ n) :
    dict_lookup (dict_insert m k v) n = dict_lookup m n := by
  rw [dict_insert, dict_lookup, dict_lookup]
  by_cases hany : m.any (fun p => p.1 == k) = true
  · rw [if_pos hany, find?_map_update_ne m k v n h]
  · rw [if_neg hany, find?_append_cases]
    cases hf : m.find? (fun p => p.1 == n) with
    | some x => rfl
    | none =>
      have hkn : (k == n) = false := by simp [h]
      simp [List.find?, hkn]

/-- Documents that never yield component `n` leave the dict entry for `n`
unchanged. -/
theorem process_files_aux_lookup_of_no_yield (n : String) :
    ∀ (l : List (String × ParseOutcome)) m ws,
      (∀ p ∈ l, ¬ yields_component p.2 n) →
      dict_lookup (process_files_aux m ws l).1 n = dict_lookup m n := by
  intro l
  induction l with
  | nil => intro m ws _; rfl
  | cons x rest ih =>
    obtain ⟨fp, c⟩ := x
    intro m ws hno
    rw [process_files_aux_cons]
    rw [ih _ _ (fun p hp => hno p (List.mem_cons_of_mem _ hp))]
    cases hname : (parse_with_warning c).1.1 with
    | none => rfl
    | some nm =>
      show dict_lookup (if nm ≠ "" ∧ (parse_with_warning c).1.2 ≠ ∅
          then dict_insert m nm (parse_with_warning c).1.2 else m) n = dict_lookup m n
      by_cases hcond : nm ≠ "" ∧ (parse_with_warning c).1.2 ≠ ∅
      · rw [if_pos hcond]
        have hne : nm ≠ n := by
          intro he
          subst he
          exact hno (fp, c) (List.mem_cons_self _ _) ⟨hname, hcond.1, hcond.2⟩
        exact dict_lookup_insert_ne m nm _ n hne
      · rw [if_neg hcond]

/-- C5 counterexample: a document that loads but lacks the expected structure
(here: a falsy document) yields no result, yet emits no warning — the claim's
"emits a warning diagnostic" is false for it. -/
theorem counterexample_C5 :
    (parse_with_warning (ParseOutcome.loaded none)).1 = (none, ∅) ∧
    (parse_with_warning (ParseOutcome.loaded none)).2 = false :=
  ⟨rfl, rfl⟩

/-- C5 (amended): a malformed document yields no result and never aborts the
run — the remaining documents are processed as if it were absent; a warning
is emitted exactly when the content fails to parse, while a document that
parses but lacks the expected structure is skipped silently. -/
theorem claim_C5 (xs ys : List (String × ParseOutcome)) (fp : String) (o : ParseOutcome)
    (h : o = ParseOutcome.failed ∨ o = ParseOutcome.loaded none) :
    (parse_with_warning o).1 = (none, ∅) ∧
    ((parse_with_warning o).2 = true ↔ o = ParseOutcome.failed) ∧
    (process_files (xs ++ (fp, o) :: ys)).1 = (process_files (xs ++ ys)).1 := by
  have hres : (parse_with_warning o).1 = (none, ∅) := by
    rcases h with h | h <;> subst h <;> rfl
  have hname : (parse_with_warning o).1.1 = none := by rw [hres]
  refine ⟨hres, ?_, ?_⟩
  · rcases h with h | h <;> subst h <;> simp [parse_with_warning, parse_pipelinerun_from_content]
  · rw [process_files, process_files, process_files_aux_append, process_files_aux_append,
      process_files_aux_cons]
    rw [hname]
    exact process_files_aux_fst_ws ys _ _ _

/-- C5 witness: a document whose content fails to parse warns, yields no
result, and does not change the resulting components dict. -/
theorem witness_C5 :
    (parse_with_warning ParseOutcome.failed).1 = (none, ∅) ∧
    ((parse_with_warning ParseOutcome.failed).2 = true ↔
      ParseOutcome.failed = ParseOutcome.failed) ∧
    (process_files ([] ++ ("bad.yaml", ParseOutcome.failed) :: [])).1 =
      (process_files ([] ++ [])).1 :=
  claim_C5 [] [] "bad.yaml" ParseOutcome.failed (Or.inl rfl)

/-- C6: with the git source strategy, a missing branch exits the run with
status 1 whatever the listing would return; an existing branch with no path
passing the PipelineRun filter also exits with status 1; an exit is never a
rendered table. -/
theorem claim_C6 (ls : Except String (List String)) (fc : String → ParseOutcome)
    (config : Config) (fmt : String) :
    (run_git_strategy false ls fc config fmt = RunResult.exited 1) ∧
    (∀ files : List String, find_pipelinerun_files_from_git files = [] →
      run_git_strategy true (Except.ok files) fc config fmt = RunResult.exited 1) ∧
    (∀ code : Nat, ∀ table : String, RunResult.exited code ≠ RunResult.output table) := by
  refine ⟨rfl, ?_, ?_⟩
  · intro files hf
    rw [run_git_strategy]
    simp [hf]
  · intro code table hcontra
    cases hcontra

/-- C6 witness: a run on a missing branch exits 1, and a run on an existing
branch whose only file does not match the PipelineRun pattern exits 1. -/
theorem witness_C6 :
    run_git_strategy false (Except.ok ["pipelineruns/a/.tekton/x.yaml"])
        (fun _ => ParseOutcome.failed) (Config.mk [] []) "markdown" = RunResult.exited 1 ∧
    run_git_strategy true (Except.ok ["README.md"])
        (fun _ => ParseOutcome.failed) (Config.mk [] []) "markdown" = RunResult.exited 1 :=
  ⟨(claim_C6 (Except.ok ["pipelineruns/a/.tekton/x.yaml"])
      (fun _ => ParseOutcome.failed) (Config.mk [] []) "markdown").1,
    (claim_C6 (Except.ok ["README.md"])
      (fun _ => ParseOutcome.failed) (Config.mk [] []) "markdown").2.1
      ["README.md"] (by decide)⟩

/-- C10: when the last document yielding a component name is processed, the
merged mapping holds exactly that document's architecture set — earlier sets
for the name are discarded, not unioned — and the warning log is exactly the
per-document parse warnings, so no diagnostic is emitted for the overwrite. -/
theorem claim_C10 (xs ys : List (String × ParseOutcome)) (fp : String) (o : ParseOutcome)
    (n : String) (B : Finset String)
    (h1 : (parse_with_warning o).1 = (some n, B)) (h2 : n ≠ "") (h3 : B ≠ ∅)
    (h4 : ∀ p ∈ ys, ¬ yields_component p.2 n) :
    dict_lookup (process_files (xs ++ (fp, o) :: ys)).1 n = some B ∧
    (process_files (xs ++ (fp, o) :: ys)).2 =
      (xs ++ (fp, o) :: ys).filterMap
        (fun p => if (parse_with_warning p.2).2 = true then some p.1 else none) := by
  have hname : (parse_with_warning o).1.1 = some n := by rw [h1]
  have hset : (parse_with_warning o).1.2 = B := by rw [h1]
  constructor
  · rw [process_files, process_files_aux_append, process_files_aux_cons]
    rw [process_files_aux_lookup_of_no_yield n ys _ _ h4]
    simp only [hname, hset]
    rw [if_pos ⟨h2, h3⟩]
    exact dict_lookup_insert_self _ n B
  · rw [process_files, process_files_aux_snd]
    simp

/-- A sample document yielding `odh-dup` built for `amd64`. -/
def doc_a : PipelineRunDoc :=
  ⟨[Param.mk (some "output-image") (some (.str "quay.io/rhoai/odh-dup:t")),
    Param.mk (some "build-platforms") (some (.list ["linux/amd64"]))]⟩

/-- A second sample document yielding `odh-dup` built for `arm64`. -/
def doc_b : PipelineRunDoc :=
  ⟨[Param.mk (some "output-image") (some (.str "quay.io/rhoai/odh-dup:t")),
    Param.mk (some "build-platforms") (some (.list ["linux/arm64"]))]⟩

/-- C10 witness: two documents yield `odh-dup`; the merged mapping keeps only
the set of the one processed last, and no extra warning is logged. -/
theorem witness_C10 :
    dict_lookup (process_files ([("f1.yaml", ParseOutcome.loaded (some doc_a))] ++
        ("f2.yaml", ParseOutcome.loaded (some doc_b)) :: [])).1 "odh-dup" =
      some ({"arm64"} : Finset String) ∧
    (process_files ([("f1.yaml", ParseOutcome.loaded (some doc_a))] ++
        ("f2.yaml", ParseOutcome.loaded (some doc_b)) :: [])).2 =
      ([("f1.yaml", ParseOutcome.loaded (some doc_a))] ++
        ("f2.yaml", ParseOutcome.loaded (some doc_b)) :: []).filterMap
        (fun p => if (parse_with_warning p.2).2 = true then some p.1 else none) :=
  claim_C10 [("f1.yaml", ParseOutcome.loaded (some doc_a))] []
    "f2.yaml" (ParseOutcome.loaded (some doc_b)) "odh-dup" {"arm64"}
    (by decide) (by decide) (by decide)
    (fun p hp => absurd hp (List.not_mem_nil p))

end GenTable
